import Mathlib

/-!
Verification of the node-manager repository (`src/src/index.ts` plus the
type declarations in `src/unnamed/part_000`..`part_002`).

The development shallowly embeds:

* the semantic-versioning parser/comparator of the `semver` dependency
  (strict mode, as used by the repository: `semver.parse` and
  `semver.compare`), modelled from node-semver's `classes/semver.js`,
  `internal/re.js` (the `FULL` regular expression) and
  `internal/identifiers.js`;
* the `NodeManager` class: its constructor, `parseVersion`,
  `compareVersions`, `getCurrentEnvironment`, `getInstalledVersions` and
  `isVersionInstalled`.

Strings are handled through their underlying character lists.  Subprocess
and filesystem effects are supplied by explicit oracle records
(`SubprocessEnv`, `FSEnv`) giving the outcome of each external call a run
performs; `Except String` models promise rejection with the error's
rendered message.
-/

/-- JavaScript `Number.MAX_SAFE_INTEGER`; node-semver rejects main version
components above it. -/
def maxSafeInteger : Nat := 9007199254740991

/-- Numeric value of a decimal digit character. -/
def digitVal (c : Char) : Nat := c.toNat - 48

/-- The decimal digit character of a value below ten (JS number-to-string,
one digit at a time). -/
def digitChar : Nat → Char
  | 0 => '0'
  | 1 => '1'
  | 2 => '2'
  | 3 => '3'
  | 4 => '4'
  | 5 => '5'
  | 6 => '6'
  | 7 => '7'
  | 8 => '8'
  | _ => '9'

/-- Value of a decimal digit string (JS `+str` for digit-only strings,
exact below `2 ^ 53`). -/
def digitsVal (ds : List Char) : Nat :=
  ds.foldl (fun a c => 10 * a + digitVal c) 0

/-- Fuel-driven decimal rendering helper. -/
def natDigitsAux : Nat → Nat → List Char
  | 0, _ => []
  | fuel + 1, n =>
    if n < 10 then [digitChar n]
    else natDigitsAux fuel (n / 10) ++ [digitChar (n % 10)]

/-- Decimal digits of a natural number, most significant first (JS
number-to-string for non-negative integers below `2 ^ 53`). -/
def natDigits (n : Nat) : List Char := natDigitsAux (n + 1) n

/-- Characters allowed in prerelease/build identifiers by node-semver's
grammar: `[0-9A-Za-z-]`. -/
def isIdentChar (c : Char) : Bool := c.isDigit || c.isAlpha || c == '-'

/-- Leading-zero rule of numeric identifiers: `0` alone, or no leading
zero (`(0|[1-9]\d*)` in node-semver's `FULL` regular expression). -/
def leadingZeroOk (ds : List Char) : Bool :=
  !(ds.head? == some '0') || ds == ['0']

/-- A valid main-version numeric component. -/
def validNumId (ds : List Char) : Bool :=
  !ds.isEmpty && ds.all Char.isDigit && leadingZeroOk ds

/-- A valid prerelease identifier: `0|[1-9]\d*|\d*[a-zA-Z-][a-zA-Z0-9-]*`,
i.e. a nonempty run of identifier characters which, when all digits,
carries no leading zero. -/
def validPreId (ds : List Char) : Bool :=
  !ds.isEmpty && ds.all isIdentChar && (!(ds.all Char.isDigit) || leadingZeroOk ds)

/-- A valid build identifier: `[0-9a-zA-Z-]+`. -/
def validBuildId (ds : List Char) : Bool :=
  !ds.isEmpty && ds.all isIdentChar

/-- Split a character list at every occurrence of `sep` (JS
`String.prototype.split` with a one-character separator). -/
def splitOnChar (sep : Char) : List Char → List (List Char)
  | [] => [[]]
  | c :: rest =>
    match splitOnChar sep rest with
    | [] => [[]]
    | g :: gs => if c = sep then [] :: g :: gs else (c :: g) :: gs

/-- Join character lists with `'.'` (JS `Array.prototype.join('.')`). -/
def joinDots : List (List Char) → List Char
  | [] => []
  | [x] => x
  | x :: y :: ys => x ++ '.' :: joinDots (y :: ys)

/-- The `-prerelease` suffix of a canonical version string: empty when
there are no prerelease identifiers. -/
def preSuffix : List (List Char) → List Char
  | [] => []
  | x :: xs => '-' :: joinDots (x :: xs)

/-- Everything after a separating head character, if any. -/
def restOpt : List Char → Option (List Char)
  | [] => none
  | _ :: t => some t

/-- Whitespace removed by JS `String.prototype.trim` (the ASCII cases plus
no-break space and the byte-order mark). -/
def isJsWhitespace (c : Char) : Bool :=
  c == ' ' || c == '\t' || c == '\n' || c == '\r' || c == '\x0b' ||
    c == '\x0c' || c == '\u00A0' || c == '\uFEFF'

/-- JS `String.prototype.trim` on character lists. -/
def jsTrim (cs : List Char) : List Char :=
  ((cs.dropWhile isJsWhitespace).reverse.dropWhile isJsWhitespace).reverse

/-- Drop one leading `'v'`, as in the repository's
`versionStr.replace(/^v/, '')` (src/src/index.ts line 78). -/
def stripLeadingV : List Char → List Char
  | [] => []
  | c :: rest => if c = 'v' then rest else c :: rest

/-- Parse one main-version numeric component; node-semver's constructor
throws (so `semver.parse` yields null) when the component exceeds
`MAX_SAFE_INTEGER`. -/
def parseMainComp (ds : List Char) : Option Nat :=
  if validNumId ds then
    if digitsVal ds ≤ maxSafeInteger then some (digitsVal ds) else none
  else none

/-- Parse the `major.minor.patch` core of a version. -/
def parseMain3 (mainCs : List Char) : Option (Nat × Nat × Nat) :=
  match splitOnChar '.' mainCs with
  | [a, b, c] =>
    match parseMainComp a, parseMainComp b, parseMainComp c with
    | some x, some y, some z => some (x, y, z)
    | _, _, _ => none
  | _ => none

/-- Parse the optional prerelease part (the text after the first `'-'`
following the main version). -/
def parsePre : Option (List Char) → Option (List (List Char))
  | none => some []
  | some pcs =>
    if (splitOnChar '.' pcs).all validPreId then some (splitOnChar '.' pcs) else none

/-- Parse the optional build part (the text after the first `'+'`). -/
def parseBuild : Option (List Char) → Option (List (List Char))
  | none => some []
  | some bcs =>
    if (splitOnChar '.' bcs).all validBuildId then some (splitOnChar '.' bcs) else none

/-- A parsed semantic version, as node-semver's `SemVer` stores it.
Prerelease identifiers are kept as their matched text; node-semver stores
small numeric identifiers as JS numbers, which render back to the same
digit string, so the text determines the stored value. -/
structure SemVerM where
  major : Nat
  minor : Nat
  patch : Nat
  prerelease : List (List Char)
  build : List (List Char)
  deriving DecidableEq, Repr

/-- The canonical version string node-semver's `format()` computes:
`major.minor.patch` plus `-prerelease` when present; build metadata is
dropped. -/
def SemVerM.versionChars (p : SemVerM) : List Char :=
  natDigits p.major ++ ('.' :: natDigits p.minor) ++ ('.' :: natDigits p.patch)
    ++ preSuffix p.prerelease

/-- Matcher for node-semver's strict `FULL` regular expression
`^v?MAIN(-PRERELEASE)?(\+BUILD)?$` (note the regular expression itself
tolerates one leading `v`).  The grammar is deterministic: `'+'` cannot
occur in main/prerelease text, main text has no `'-'`, so splitting at the
first `'+'` and then the first `'-'` matches the regular expression's
decomposition. -/
def semverParseCore (cs : List Char) : Option SemVerM :=
  match parseMain3 (((stripLeadingV cs).takeWhile (fun c => !(c == '+'))).takeWhile
          (fun c => !(c == '-'))),
      parsePre (restOpt (((stripLeadingV cs).takeWhile (fun c => !(c == '+'))).dropWhile
          (fun c => !(c == '-')))),
      parseBuild (restOpt ((stripLeadingV cs).dropWhile (fun c => !(c == '+')))) with
  | some (x, y, z), some pre, some bld =>
    some { major := x, minor := y, patch := z, prerelease := pre, build := bld }
  | _, _, _ => none

/-- node-semver's `semver.parse` in strict mode: null on any failure.  The
`SemVer` constructor rejects inputs longer than 256 characters, trims the
rest and matches it against `FULL`. -/
def semverParseL (cs : List Char) : Option SemVerM :=
  if cs.length > 256 then none
  else semverParseCore (jsTrim cs)

/-- Round a natural number to the nearest JS double (round to nearest,
ties to even); the identity below `2 ^ 53`.  Models the precision loss of
the `+identifier` coercion node-semver applies to numeric identifiers. -/
def jsRound (v : Nat) : Nat :=
  if v < 2 ^ 53 then v
  else
    let k := v.log2 - 52
    let q := v / 2 ^ k
    let r := v % 2 ^ k
    let h := 2 ^ (k - 1)
    if r < h then q * 2 ^ k
    else if h < r then (q + 1) * 2 ^ k
    else if q % 2 = 0 then q * 2 ^ k else (q + 1) * 2 ^ k

/-- node-semver's `/^[0-9]+$/` numericness test on an identifier. -/
def identIsNumeric (ds : List Char) : Bool :=
  !ds.isEmpty && ds.all Char.isDigit

/-- JS `<` on strings: lexicographic comparison of code units. -/
def charListLt : List Char → List Char → Bool
  | [], [] => false
  | [], _ :: _ => true
  | _ :: _, [] => false
  | a :: as, b :: bs =>
    if a < b then true else if b < a then false else charListLt as bs

/-- Three-way comparison of naturals as node-semver's
`compareIdentifiers` performs it on numbers (`a === b ? 0 : a < b ? -1 :
1`). -/
def cmpNat (a b : Nat) : Int :=
  if a = b then 0 else if a < b then -1 else 1

/-- node-semver `internal/identifiers.js` `compareIdentifiers`: numeric
identifiers compare as JS numbers (after lossy coercion), a numeric
identifier sorts below an alphanumeric one, and alphanumeric identifiers
compare as strings. -/
def compareIdentifiers (a b : List Char) : Int :=
  if identIsNumeric a && identIsNumeric b then
    cmpNat (jsRound (digitsVal a)) (jsRound (digitsVal b))
  else if identIsNumeric a then -1
  else if identIsNumeric b then 1
  else if a = b then 0
  else if charListLt a b then -1 else 1

/-- The do-while loop of node-semver's `comparePre`: stored-equal
identifiers continue the scan, the first differing position decides, a
longer list (both nonempty at entry) is greater. -/
def comparePreLoop : List (List Char) → List (List Char) → Int
  | [], [] => 0
  | _ :: _, [] => 1
  | [], _ :: _ => -1
  | a :: as, b :: bs => if a = b then comparePreLoop as bs else compareIdentifiers a b

/-- node-semver's `comparePre`: a version with prerelease identifiers
sorts below one without; otherwise the identifier lists are compared
position by position. -/
def comparePre (as bs : List (List Char)) : Int :=
  match as, bs with
  | [], [] => 0
  | [], _ :: _ => 1
  | _ :: _, [] => -1
  | a :: as, b :: bs => comparePreLoop (a :: as) (b :: bs)

/-- node-semver's `compareMain`: major, then minor, then patch. -/
def compareMain (p q : SemVerM) : Int :=
  if cmpNat p.major q.major ≠ 0 then cmpNat p.major q.major
  else if cmpNat p.minor q.minor ≠ 0 then cmpNat p.minor q.minor
  else cmpNat p.patch q.patch

/-- node-semver's `SemVer.compare`: `compareMain` first, prerelease
comparison as tiebreaker. -/
def semverCompare (p q : SemVerM) : Int :=
  if compareMain p q ≠ 0 then compareMain p q
  else comparePre p.prerelease q.prerelease

/-- The `NodeVersion` record `parseVersion` returns (src/unnamed/part_000
lines 4-17; the optional `lts`/`date` fields are never populated by this
repository and are omitted). -/
structure NodeVersion where
  version : String
  major : Nat
  minor : Nat
  patch : Nat
  deriving DecidableEq, Repr

/-- NodeManager.parseVersion (src/src/index.ts lines 76-91): strip one
leading `v`, delegate to `semver.parse`, and repackage with a
`v`-prefixed canonical version string. -/
def NodeManager.parseVersion (versionStr : String) : Option NodeVersion :=
  match semverParseL (stripLeadingV versionStr.data) with
  | none => none
  | some p =>
    some { version := ⟨'v' :: p.versionChars⟩, major := p.major,
           minor := p.minor, patch := p.patch }

/-- NodeManager.compareVersions (src/src/index.ts lines 96-100): strip
`v` prefixes and delegate to `semver.compare`.  `none` models the
exception `semver.compare` raises on malformed input. -/
def NodeManager.compareVersions (v1 v2 : String) : Option Int :=
  match semverParseL (stripLeadingV v1.data), semverParseL (stripLeadingV v2.data) with
  | some a, some b => some (semverCompare a b)
  | _, _ => none

deriving instance DecidableEq for Except

/-- Outcome record for the subprocess invocations `getCurrentEnvironment`
can make (src/src/index.ts lines 49-71): each field is the settled result
of the corresponding `execa` promise (`ok` carries `stdout`, `error` the
rendered rejection), plus `process.arch` / `process.platform`. -/
structure SubprocessEnv where
  nodeVersionCmd : Except String String
  npmVersionCmd : Except String String
  whichNodeCmd : Except String String
  whereNodeCmd : Except String String
  whichNpmCmd : Except String String
  whereNpmCmd : Except String String
  arch : String
  platform : String
  deriving DecidableEq, Repr

/-- The `NodeEnvironment` snapshot (src/unnamed/part_000 lines 56-73). -/
structure NodeEnvironment where
  nodeVersion : String
  npmVersion : String
  nodePath : String
  npmPath : String
  arch : String
  platform : String
  deriving DecidableEq, Repr

/-- The wrapping error of `getCurrentEnvironment`'s catch block
(src/src/index.ts line 69). -/
def envWrap (e : String) : String := "Failed to get Node environment: " ++ e

/-- JS `s.split('\n')[0]`: the text before the first newline. -/
def firstLine (s : String) : String := ⟨s.data.takeWhile (fun c => !(c == '\n'))⟩

/-- JS `String.prototype.trim` on `String`. -/
def jsTrimS (s : String) : String := ⟨jsTrim s.data⟩

/-- The `promise.catch(() => fallback)` pattern used for the `which`
/`where` lookups: the fallback's outcome stands when the first call
rejects. -/
def orElseCatch (a b : Except String String) : Except String String :=
  match a with
  | .ok v => .ok v
  | .error _ => b

/-- NodeManager.getCurrentEnvironment (src/src/index.ts lines 49-71):
`node --version`, `npm --version`, then `which`-with-`where`-fallback for
each executable; any rejection reaching the outer try is rewrapped. -/
def NodeManager.getCurrentEnvironment (env : SubprocessEnv) : Except String NodeEnvironment :=
  match env.nodeVersionCmd with
  | .error e => .error (envWrap e)
  | .ok nodeV =>
    match env.npmVersionCmd with
    | .error e => .error (envWrap e)
    | .ok npmV =>
      match orElseCatch env.whichNodeCmd env.whereNodeCmd with
      | .error e => .error (envWrap e)
      | .ok nodeP =>
        match orElseCatch env.whichNpmCmd env.whereNpmCmd with
        | .error e => .error (envWrap e)
        | .ok npmP =>
          .ok { nodeVersion := jsTrimS nodeV
                npmVersion := jsTrimS npmV
                nodePath := jsTrimS (firstLine nodeP)
                npmPath := jsTrimS (firstLine npmP)
                arch := env.arch
                platform := env.platform }

/-- Constructor input (src/unnamed/part_000 lines 33-42): every field of
`NodeManagerConfig` is optional.  The outer `Option` distinguishes an
absent key from a key present with the JS value `undefined` (the inner
`none`). -/
structure ConfigIn where
  installDir : Option (Option String) := none
  mirror : Option (Option String) := none
  proxy : Option (Option String) := none
  verbose : Option (Option Bool) := none
  deriving DecidableEq, Repr

/-- The resolved `this.config` object; a `none` field is the JS value
`undefined`. -/
structure Config where
  installDir : Option String
  mirror : Option String
  proxy : Option String
  verbose : Option Bool
  deriving DecidableEq, Repr

/-- JS property access on a possibly-absent key: absent reads as
`undefined`. -/
def readKey {α : Type} (x : Option (Option α)) : Option α := x.join

/-- JS truthiness-based default `x || d` for string-valued fields:
`undefined` and the empty string are falsy. -/
def jsOrStr (x : Option String) (d : String) : Option String :=
  match x with
  | none => some d
  | some s => if s.isEmpty then some d else some s

/-- JS nullish default `x ?? d` for the boolean field. -/
def jsNullishBool (x : Option Bool) (d : Bool) : Option Bool :=
  match x with
  | none => some d
  | some b => some b

/-- `path.join(a, b)` restricted to the simple concatenation case; no
claim depends on path normalisation. -/
def pathJoin (a b : String) : String := a ++ "/" ++ b

/-- The default install directory `path.join(os.homedir(), '.ldesign',
'node')`, with the home directory as a parameter. -/
def defaultInstallDir (home : String) : String :=
  pathJoin (pathJoin home ".ldesign") "node"

/-- The default mirror. -/
def defaultMirror : String := "https://nodejs.org/dist"

/-- The NodeManager constructor (src/src/index.ts lines 37-44): an object
literal computing `||`/`??` defaults for three fields, followed by
`...config`, whose own keys (including ones carrying `undefined`)
overwrite the computed fields. -/
def NodeManager.makeConfig (home : String) (config : ConfigIn) : Config :=
  let base : Config :=
    { installDir := jsOrStr (readKey config.installDir) (defaultInstallDir home)
      mirror := jsOrStr (readKey config.mirror) defaultMirror
      verbose := jsNullishBool (readKey config.verbose) false
      proxy := none }
  { installDir := match config.installDir with | none => base.installDir | some v => v
    mirror := match config.mirror with | none => base.mirror | some v => v
    verbose := match config.verbose with | none => base.verbose | some v => v
    proxy := match config.proxy with | none => base.proxy | some v => v }

/-- One `withFileTypes` entry of `fs.readdir`. -/
structure DirEntry where
  name : String
  isDirectory : Bool
  deriving DecidableEq, Repr

/-- Outcome record for the filesystem calls of `getInstalledVersions`
(src/src/index.ts lines 117-121): the settled results of
`fs.pathExists(installDir)` and `fs.readdir(installDir)` in the run under
consideration. -/
structure FSEnv where
  pathExists : Except String Bool
  readdir : Except String (List DirEntry)
  deriving DecidableEq, Repr

/-- The `InstalledNodeVersion` record (src/unnamed/part_000 lines 22-29,
without the never-populated `lts`/`date` fields). -/
structure InstalledNodeVersion where
  version : String
  major : Nat
  minor : Nat
  patch : Nat
  path : String
  current : Bool
  default : Bool
  deriving DecidableEq, Repr

/-- Does the string start with the character `v`? -/
def startsWithV (s : String) : Bool :=
  match s.data with
  | 'v' :: _ => true
  | _ => false

/-- The loop body of `getInstalledVersions` (src/src/index.ts lines
125-140): keep an entry when it is a directory, its name starts with `v`
and the name parses; mark it current when the name equals the live node
version string. -/
def mkInstalledEntry (installDir : String) (currentEnv : Option NodeEnvironment)
    (e : DirEntry) : Option InstalledNodeVersion :=
  if e.isDirectory && startsWithV e.name then
    match NodeManager.parseVersion e.name with
    | some vi =>
      some { version := vi.version, major := vi.major, minor := vi.minor,
             patch := vi.patch, path := pathJoin installDir e.name,
             current := match currentEnv with
                        | some ce => ce.nodeVersion == e.name
                        | none => false,
             default := false }
    | none => none
  else none

/-- The comparator handed to `Array.prototype.sort` at src/src/index.ts
line 142 — `(a, b) => compareVersions(b.version, a.version)` — read as a
boolean `x may precede y` test.  Its inputs are canonical strings
produced by `parseVersion`, for which `compareVersions` never fails;
`getD 0` is therefore never exercised. -/
def sortLE (x y : InstalledNodeVersion) : Bool :=
  decide ((NodeManager.compareVersions y.version x.version).getD 0 ≤ 0)

/-- Insert into a comparator-sorted list. -/
def jsInsert {α : Type} (le : α → α → Bool) (x : α) : List α → List α
  | [] => [x]
  | y :: ys => if le x y then x :: y :: ys else y :: jsInsert le x ys

/-- Comparator sort, modelling `Array.prototype.sort(cmp)`: a permutation
of the input on which adjacent elements satisfy the comparator. -/
def jsSortBy {α : Type} (le : α → α → Bool) (l : List α) : List α :=
  l.foldr (jsInsert le) []

/-- NodeManager.getInstalledVersions (src/src/index.ts lines 113-149).
An undefined install directory, a missing directory, or a rejected
filesystem call all end in the empty list (the final two through the
enclosing catch; `verbose` only controls logging).  Otherwise the child
entries are filtered, decorated with the best-effort current environment
(`.catch(() => null)`), and sorted with `compareVersions`. -/
def NodeManager.getInstalledVersions (cfg : Config) (fs : FSEnv)
    (env : SubprocessEnv) : List InstalledNodeVersion :=
  match cfg.installDir with
  | none => []
  | some dir =>
    match fs.pathExists with
    | .error _ => []
    | .ok false => []
    | .ok true =>
      match fs.readdir with
      | .error _ => []
      | .ok entries =>
        jsSortBy sortLE (entries.filterMap
          (mkInstalledEntry dir (NodeManager.getCurrentEnvironment env).toOption))

/-- NodeManager.isVersionInstalled (src/src/index.ts lines 154-157):
exact string match of the input against the canonical version strings. -/
def NodeManager.isVersionInstalled (cfg : Config) (fs : FSEnv)
    (env : SubprocessEnv) (version : String) : Bool :=
  (NodeManager.getInstalledVersions cfg fs env).any (fun v => v.version == version)

/-- The reconstruction `"v" + major + "." + minor + "." + patch` named by
the specification's invariant for `NodeVersion.version`. -/
def reconstructVersion (d : NodeVersion) : List Char :=
  'v' :: (natDigits d.major ++ ('.' :: natDigits d.minor) ++ ('.' :: natDigits d.patch))

/-- The `major.minor.patch` core of a canonical version string, in
right-nested form convenient for decomposition lemmas. -/
def mainChars (x y z : Nat) : List Char :=
  natDigits x ++ '.' :: (natDigits y ++ '.' :: natDigits z)

/-- Well-formedness facts every successful `semverParseL` result enjoys:
bounded components, valid prerelease identifiers, and a canonical string
short enough to be re-parsed. -/
def SemVerWF (p : SemVerM) : Prop :=
  p.major ≤ maxSafeInteger ∧ p.minor ≤ maxSafeInteger ∧ p.patch ≤ maxSafeInteger ∧
    (∀ id ∈ p.prerelease, validPreId id = true) ∧ p.versionChars.length ≤ 256

/-- A sample subprocess oracle where every needed invocation succeeds. -/
def sampleEnvOk : SubprocessEnv :=
  { nodeVersionCmd := .ok "v20.0.0\n", npmVersionCmd := .ok "10.2.3\n",
    whichNodeCmd := .ok "/usr/bin/node\n", whereNodeCmd := .error "E",
    whichNpmCmd := .ok "/usr/bin/npm\n", whereNpmCmd := .error "E",
    arch := "x64", platform := "linux" }

/-- A sample subprocess oracle where both version invocations succeed but
both executable lookups fail for node. -/
def sampleEnvNoLookup : SubprocessEnv :=
  { nodeVersionCmd := .ok "v20.0.0", npmVersionCmd := .ok "10.1.0",
    whichNodeCmd := .error "E1", whereNodeCmd := .error "E2",
    whichNpmCmd := .ok "/usr/bin/npm", whereNpmCmd := .error "E3",
    arch := "x64", platform := "linux" }

/-- A sample resolved configuration with all defaults. -/
def sampleCfg : Config := NodeManager.makeConfig "/home/u" {}

/-- A sample filesystem oracle with two version directories, one
non-version directory and one non-directory entry. -/
def sampleFs : FSEnv :=
  { pathExists := .ok true,
    readdir := .ok [⟨"v18.0.0", true⟩, ⟨"v20.0.0", true⟩,
      ⟨"not-a-version", true⟩, ⟨"v19.0.0", false⟩] }

/-- A sample filesystem oracle for a missing install directory. -/
def sampleFsMissing : FSEnv := { pathExists := .ok false, readdir := .ok [] }

/-! ### Decimal digit lemmas -/

theorem digitVal_digitChar : ∀ n, n < 10 → digitVal (digitChar n) = n := by decide

theorem isDigit_digitChar : ∀ n, n < 10 → (digitChar n).isDigit = true := by decide

theorem digitChar_ne_zero : ∀ n, n < 10 → n ≠ 0 → digitChar n ≠ '0' := by decide

theorem natDigitsAux_congr : ∀ f1 f2 n, n < f1 → n < f2 →
    natDigitsAux f1 n = natDigitsAux f2 n := by
  intro f1
  induction f1 with
  | zero => intro f2 n h1 _; omega
  | succ a ih =>
    intro f2 n h1 h2
    cases f2 with
    | zero => omega
    | succ b =>
      simp only [natDigitsAux]
      by_cases h10 : n < 10
      · simp [h10]
      · have hd : n / 10 < n := Nat.div_lt_self (by omega) (by omega)
        simp only [if_neg h10]
        exact congrArg (fun l => l ++ [digitChar (n % 10)])
          (ih b (n / 10) (by omega) (by omega))

theorem natDigits_eq (n : Nat) :
    natDigits n = if n < 10 then [digitChar n]
      else natDigits (n / 10) ++ [digitChar (n % 10)] := by
  show natDigitsAux (n + 1) n = _
  simp only [natDigitsAux]
  by_cases h10 : n < 10
  · simp [h10]
  · have hd : n / 10 < n := Nat.div_lt_self (by omega) (by omega)
    simp only [if_neg h10]
    exact congrArg (fun l => l ++ [digitChar (n % 10)])
      (natDigitsAux_congr n (n / 10 + 1) (n / 10) (by omega) (by omega))

theorem digitsVal_append_singleton (xs : List Char) (c : Char) :
    digitsVal (xs ++ [c]) = 10 * digitsVal xs + digitVal c := by
  simp [digitsVal, List.foldl_append]

theorem digitsVal_natDigits (n : Nat) : digitsVal (natDigits n) = n := by
  induction n using Nat.strong_induction_on with
  | _ n ih =>
    rw [natDigits_eq]
    by_cases h10 : n < 10
    · simp only [if_pos h10]
      show 10 * 0 + digitVal (digitChar n) = n
      rw [digitVal_digitChar n h10]
      omega
    · have hd : n / 10 < n := Nat.div_lt_self (by omega) (by omega)
      simp only [if_neg h10]
      rw [digitsVal_append_singleton, ih (n / 10) hd,
        digitVal_digitChar (n % 10) (Nat.mod_lt n (by omega))]
      omega

theorem natDigits_ne_nil (n : Nat) : natDigits n ≠ [] := by
  rw [natDigits_eq]
  by_cases h10 : n < 10 <;> simp [h10]

theorem mem_natDigits_isDigit (n : Nat) : ∀ c ∈ natDigits n, c.isDigit = true := by
  induction n using Nat.strong_induction_on with
  | _ n ih =>
    rw [natDigits_eq]
    by_cases h10 : n < 10
    · simp only [if_pos h10, List.mem_singleton]
      intro c hc; subst hc; exact isDigit_digitChar n h10
    · have hd : n / 10 < n := Nat.div_lt_self (by omega) (by omega)
      simp only [if_neg h10, List.mem_append, List.mem_singleton]
      rintro c (hc | hc)
      · exact ih (n / 10) hd c hc
      · subst hc; exact isDigit_digitChar (n % 10) (Nat.mod_lt n (by omega))

theorem natDigits_head_ne_zero (n : Nat) (hn : n ≠ 0) :
    (natDigits n).head? ≠ some '0' := by
  induction n using Nat.strong_induction_on with
  | _ n ih =>
    rw [natDigits_eq]
    by_cases h10 : n < 10
    · simp only [if_pos h10, List.head?]
      intro h
      exact digitChar_ne_zero n h10 hn (by injection h)
    · have hd : n / 10 < n := Nat.div_lt_self (by omega) (by omega)
      simp only [if_neg h10]
      obtain ⟨c, cs, hcs⟩ := List.exists_cons_of_ne_nil (natDigits_ne_nil (n / 10))
      rw [hcs]
      have := ih (n / 10) hd (by omega)
      rw [hcs] at this
      simpa using this

theorem natDigits_zero : natDigits 0 = ['0'] := rfl

theorem validNumId_natDigits (n : Nat) : validNumId (natDigits n) = true := by
  simp only [validNumId, Bool.and_eq_true, Bool.not_eq_true', leadingZeroOk,
    Bool.or_eq_true, List.all_eq_true]
  refine ⟨⟨?_, fun c hc => mem_natDigits_isDigit n c hc⟩, ?_⟩
  · simp [List.isEmpty_iff, natDigits_ne_nil n]
  · by_cases hn : n = 0
    · subst hn; right; rfl
    · left
      simp only [beq_eq_false_iff_ne, ne_eq]
      exact natDigits_head_ne_zero n hn

theorem digitsVal_acc (ds : List Char) : ∀ acc,
    ds.foldl (fun a c => 10 * a + digitVal c) acc
      = acc * 10 ^ ds.length + digitsVal ds := by
  induction ds with
  | nil => intro acc; simp [digitsVal]
  | cons c ds ih =>
    intro acc
    show ds.foldl _ (10 * acc + digitVal c) = _
    rw [ih (10 * acc + digitVal c)]
    have hsp : digitsVal (c :: ds)
        = ds.foldl (fun a c => 10 * a + digitVal c) (10 * 0 + digitVal c) := rfl
    rw [hsp, ih (10 * 0 + digitVal c)]
    simp only [List.length_cons, Nat.pow_succ]
    ring

theorem digitVal_le_nine (c : Char) (hc : c.isDigit = true) : digitVal c ≤ 9 := by
  have h : c ≤ '9' := by
    simp only [Char.isDigit, Bool.and_eq_true, decide_eq_true_eq] at hc
    exact hc.2
  have h2 : c.toNat ≤ 57 := h
  simp only [digitVal]
  omega

theorem digitsVal_lt (ds : List Char) (h : ∀ c ∈ ds, c.isDigit = true) :
    digitsVal ds < 10 ^ ds.length := by
  induction ds with
  | nil => simp [digitsVal]
  | cons c ds ih =>
    have hc := h c (List.mem_cons_self ..)
    have hds := ih (fun x hx => h x (List.mem_cons_of_mem _ hx))
    have hsp : digitsVal (c :: ds) = digitVal c * 10 ^ ds.length + digitsVal ds := by
      show ds.foldl _ (10 * 0 + digitVal c) = _
      rw [digitsVal_acc]
      ring
    rw [hsp, List.length_cons, Nat.pow_succ]
    have := digitVal_le_nine c hc
    nlinarith

theorem natDigits_length_le (n : Nat) : ∀ k, 1 ≤ k → n < 10 ^ k →
    (natDigits n).length ≤ k := by
  induction n using Nat.strong_induction_on with
  | _ n ih =>
    intro k hk hnk
    rw [natDigits_eq]
    by_cases h10 : n < 10
    · simp [if_pos h10, hk]
    · have hd : n / 10 < n := Nat.div_lt_self (by omega) (by omega)
      simp only [if_neg h10, List.length_append, List.length_singleton]
      cases k with
      | zero => omega
      | succ k' =>
        have hk' : 1 ≤ k' := by
          by_contra hc
          have : k' = 0 := by omega
          subst this
          simp at hnk
          omega
        have hlt : n / 10 < 10 ^ k' := by
          rw [Nat.div_lt_iff_lt_mul (by omega)]
          calc n < 10 ^ (k' + 1) := hnk
          _ = 10 ^ k' * 10 := by rw [Nat.pow_succ]
        have := ih (n / 10) hd k' hk' hlt
        omega

/-! ### Splitting and joining lemmas -/

theorem splitOnChar_ne_nil (sep : Char) (cs : List Char) : splitOnChar sep cs ≠ [] := by
  cases cs with
  | nil => simp [splitOnChar]
  | cons c rest =>
    simp only [splitOnChar]
    cases splitOnChar sep rest with
    | nil => simp
    | cons g gs =>
      by_cases hc : c = sep <;> simp [hc]

theorem joinDots_splitOnChar (cs : List Char) :
    joinDots (splitOnChar '.' cs) = cs := by
  induction cs with
  | nil => rfl
  | cons c rest ih =>
    simp only [splitOnChar]
    cases h : splitOnChar '.' rest with
    | nil => exact absurd h (splitOnChar_ne_nil '.' rest)
    | cons g gs =>
      rw [h] at ih
      by_cases hc : c = '.'
      · subst hc
        simp only [if_pos rfl]
        show '.' :: joinDots (g :: gs) = '.' :: rest
        rw [ih]
      · simp only [if_neg hc]
        cases gs with
        | nil =>
          show c :: g = c :: rest
          simp only [joinDots] at ih
          rw [ih]
        | cons g2 gs2 =>
          show (c :: g) ++ '.' :: joinDots (g2 :: gs2) = c :: rest
          simp only [joinDots] at ih
          simp only [List.cons_append]
          rw [ih]

theorem splitOnChar_no_sep (sep : Char) (xs : List Char)
    (h : ∀ c ∈ xs, ¬ c = sep) : splitOnChar sep xs = [xs] := by
  induction xs with
  | nil => rfl
  | cons c rest ih =>
    have hc := h c (List.mem_cons_self ..)
    have hrest := ih (fun x hx => h x (List.mem_cons_of_mem _ hx))
    simp only [splitOnChar, hrest, if_neg hc]

theorem splitOnChar_append_sep (sep : Char) (xs rest : List Char)
    (h : ∀ c ∈ xs, ¬ c = sep) :
    splitOnChar sep (xs ++ sep :: rest) = xs :: splitOnChar sep rest := by
  induction xs with
  | nil =>
    simp only [List.nil_append, splitOnChar]
    cases hs : splitOnChar sep rest with
    | nil => exact absurd hs (splitOnChar_ne_nil sep rest)
    | cons g gs => simp
  | cons c xs ih =>
    have hc := h c (List.mem_cons_self ..)
    have ihh := ih (fun x hx => h x (List.mem_cons_of_mem _ hx))
    simp only [List.cons_append, splitOnChar, List.append_eq, ihh, if_neg hc]

theorem splitOnChar_joinDots (ids : List (List Char)) (hne : ids ≠ [])
    (h : ∀ id ∈ ids, ∀ c ∈ id, ¬ c = '.') :
    splitOnChar '.' (joinDots ids) = ids := by
  induction ids with
  | nil => exact absurd rfl hne
  | cons x xs ih =>
    cases xs with
    | nil =>
      show splitOnChar '.' x = [x]
      exact splitOnChar_no_sep '.' x (h x (List.mem_cons_self ..))
    | cons y ys =>
      show splitOnChar '.' (x ++ '.' :: joinDots (y :: ys)) = x :: y :: ys
      rw [splitOnChar_append_sep '.' x _ (h x (List.mem_cons_self ..))]
      rw [ih (by simp) (fun id hid c hc => h id (List.mem_cons_of_mem _ hid) c hc)]

/-! ### takeWhile, dropWhile and trim lemmas -/

theorem takeWhile_all {p : Char → Bool} (cs : List Char)
    (h : ∀ c ∈ cs, p c = true) : cs.takeWhile p = cs := by
  induction cs with
  | nil => rfl
  | cons c rest ih =>
    simp [List.takeWhile_cons, h c (List.mem_cons_self ..),
      ih (fun x hx => h x (List.mem_cons_of_mem _ hx))]

theorem dropWhile_all {p : Char → Bool} (cs : List Char)
    (h : ∀ c ∈ cs, p c = true) : cs.dropWhile p = [] := by
  induction cs with
  | nil => rfl
  | cons c rest ih =>
    simp [List.dropWhile_cons, h c (List.mem_cons_self ..),
      ih (fun x hx => h x (List.mem_cons_of_mem _ hx))]

theorem dropWhile_none {p : Char → Bool} (cs : List Char)
    (h : ∀ c ∈ cs, p c = false) : cs.dropWhile p = cs := by
  cases cs with
  | nil => rfl
  | cons c rest =>
    simp [List.dropWhile_cons, h c (List.mem_cons_self ..)]

theorem takeWhile_append_stop {p : Char → Bool} (xs : List Char) (b : Char)
    (rest : List Char) (h : ∀ c ∈ xs, p c = true) (hb : p b = false) :
    (xs ++ b :: rest).takeWhile p = xs := by
  induction xs with
  | nil => simp [List.takeWhile_cons, hb]
  | cons c cs ih =>
    simp [List.cons_append, List.takeWhile_cons, h c (List.mem_cons_self ..),
      ih (fun x hx => h x (List.mem_cons_of_mem _ hx))]

theorem dropWhile_append_stop {p : Char → Bool} (xs : List Char) (b : Char)
    (rest : List Char) (h : ∀ c ∈ xs, p c = true) (hb : p b = false) :
    (xs ++ b :: rest).dropWhile p = b :: rest := by
  induction xs with
  | nil => simp [List.dropWhile_cons, hb]
  | cons c cs ih =>
    simp [List.cons_append, List.dropWhile_cons, h c (List.mem_cons_self ..),
      ih (fun x hx => h x (List.mem_cons_of_mem _ hx))]

theorem dropWhile_head_false {p : Char → Bool} (cs : List Char) (x : Char)
    (xs : List Char) (h : cs.dropWhile p = x :: xs) : p x = false := by
  induction cs with
  | nil => simp at h
  | cons c rest ih =>
    rw [List.dropWhile_cons] at h
    by_cases hc : p c = true
    · rw [if_pos hc] at h
      exact ih h
    · rw [if_neg hc] at h
      injection h with h1 _
      subst h1
      simpa using hc

theorem jsTrim_eq_self (cs : List Char)
    (h : ∀ c ∈ cs, isJsWhitespace c = false) : jsTrim cs = cs := by
  unfold jsTrim
  rw [dropWhile_none cs h]
  rw [dropWhile_none cs.reverse (fun c hc => h c (List.mem_reverse.mp hc))]
  exact List.reverse_reverse cs

theorem length_dropWhile_self_le {p : Char → Bool} (l : List Char) :
    (l.dropWhile p).length ≤ l.length := by
  induction l with
  | nil => simp
  | cons c rest ih =>
    rw [List.dropWhile_cons]
    by_cases hc : p c = true
    · rw [if_pos hc]
      simp only [List.length_cons]
      omega
    · rw [if_neg hc]

theorem jsTrim_length_le (cs : List Char) : (jsTrim cs).length ≤ cs.length := by
  unfold jsTrim
  calc ((cs.dropWhile isJsWhitespace).reverse.dropWhile isJsWhitespace).reverse.length
      = ((cs.dropWhile isJsWhitespace).reverse.dropWhile isJsWhitespace).length := by
        rw [List.length_reverse]
    _ ≤ (cs.dropWhile isJsWhitespace).reverse.length := length_dropWhile_self_le ..
    _ = (cs.dropWhile isJsWhitespace).length := by rw [List.length_reverse]
    _ ≤ cs.length := length_dropWhile_self_le ..

theorem stripLeadingV_length_le (cs : List Char) :
    (stripLeadingV cs).length ≤ cs.length := by
  cases cs with
  | nil => simp [stripLeadingV]
  | cons c rest =>
    simp only [stripLeadingV]
    by_cases hc : c = 'v' <;> simp [hc]

/-! ### Character classification lemmas -/

theorem ne_of_bool_pred {p : Char → Bool} {c d : Char} (hc : p c = true)
    (hd : p d = false) : ¬ c = d := by
  intro h
  subst h
  rw [hc] at hd
  exact Bool.noConfusion hd

theorem bnot_beq_of_ne {c d : Char} (h : ¬ c = d) : (!(c == d)) = true := by
  simp [h]

theorem isDigit_isIdentChar {c : Char} (h : c.isDigit = true) :
    isIdentChar c = true := by
  simp [isIdentChar, h]

theorem isIdentChar_not_ws {c : Char} (h : isIdentChar c = true) :
    isJsWhitespace c = false := by
  by_contra hw
  have hw' : isJsWhitespace c = true := by
    cases hww : isJsWhitespace c
    · exact absurd hww hw
    · rfl
  simp only [isJsWhitespace, Bool.or_eq_true, beq_iff_eq] at hw'
  rcases hw' with ((((((h1 | h1) | h1) | h1) | h1) | h1) | h1) | h1 <;>
    (subst h1; exact absurd h (by decide))

theorem validPreId_mem_ident {id : List Char} (h : validPreId id = true) :
    ∀ c ∈ id, isIdentChar c = true := by
  simp only [validPreId, Bool.and_eq_true, List.all_eq_true] at h
  exact h.1.2

theorem mem_joinDots {ids : List (List Char)} {c : Char} (h : c ∈ joinDots ids) :
    c = '.' ∨ ∃ id ∈ ids, c ∈ id := by
  induction ids with
  | nil => simp [joinDots] at h
  | cons x xs ih =>
    cases xs with
    | nil =>
      right
      exact ⟨x, List.mem_cons_self .., h⟩
    | cons y ys =>
      simp only [joinDots, List.mem_append, List.mem_cons] at h
      rcases h with h | h | h
      · right; exact ⟨x, List.mem_cons_self .., h⟩
      · left; exact h
      · rcases ih h with h' | ⟨id, hid, hcid⟩
        · left; exact h'
        · right; exact ⟨id, List.mem_cons_of_mem _ hid, hcid⟩

theorem mem_mainChars {x y z : Nat} {c : Char} (h : c ∈ mainChars x y z) :
    c.isDigit = true ∨ c = '.' := by
  simp only [mainChars, List.mem_append, List.mem_cons] at h
  rcases h with h | h | h | h | h
  · exact Or.inl (mem_natDigits_isDigit x c h)
  · exact Or.inr h
  · exact Or.inl (mem_natDigits_isDigit y c h)
  · exact Or.inr h
  · exact Or.inl (mem_natDigits_isDigit z c h)

theorem mem_preSuffix {pre : List (List Char)} {c : Char}
    (hpre : ∀ id ∈ pre, validPreId id = true) (h : c ∈ preSuffix pre) :
    isIdentChar c = true ∨ c = '.' := by
  cases pre with
  | nil => simp [preSuffix] at h
  | cons i is =>
    simp only [preSuffix, List.mem_cons] at h
    rcases h with h | h
    · subst h; exact Or.inl (by decide)
    · rcases mem_joinDots h with h' | ⟨id, hid, hcid⟩
      · exact Or.inr h'
      · exact Or.inl (validPreId_mem_ident (hpre id hid) c hcid)

theorem versionChars_decomp (p : SemVerM) :
    p.versionChars = mainChars p.major p.minor p.patch ++ preSuffix p.prerelease := by
  simp [SemVerM.versionChars, mainChars, List.append_assoc, List.cons_append]

theorem mem_versionChars_classify {p : SemVerM} {c : Char}
    (hpre : ∀ id ∈ p.prerelease, validPreId id = true) (h : c ∈ p.versionChars) :
    isIdentChar c = true ∨ c = '.' := by
  rw [versionChars_decomp] at h
  rcases List.mem_append.mp h with h | h
  · rcases mem_mainChars h with h' | h'
    · exact Or.inl (isDigit_isIdentChar h')
    · exact Or.inr h'
  · exact mem_preSuffix hpre h

/-! ### Re-parsing canonical version strings -/

theorem parseMainComp_natDigits (x : Nat) (hx : x ≤ maxSafeInteger) :
    parseMainComp (natDigits x) = some x := by
  simp [parseMainComp, validNumId_natDigits, digitsVal_natDigits, hx]

theorem splitOnChar_mainChars (x y z : Nat) :
    splitOnChar '.' (mainChars x y z) = [natDigits x, natDigits y, natDigits z] := by
  have hx : ∀ c ∈ natDigits x, ¬ c = '.' :=
    fun c hc => ne_of_bool_pred (mem_natDigits_isDigit x c hc) (by decide)
  have hy : ∀ c ∈ natDigits y, ¬ c = '.' :=
    fun c hc => ne_of_bool_pred (mem_natDigits_isDigit y c hc) (by decide)
  have hz : ∀ c ∈ natDigits z, ¬ c = '.' :=
    fun c hc => ne_of_bool_pred (mem_natDigits_isDigit z c hc) (by decide)
  rw [mainChars, splitOnChar_append_sep '.' _ _ hx, splitOnChar_append_sep '.' _ _ hy,
    splitOnChar_no_sep '.' _ hz]

theorem parseMain3_mainChars (x y z : Nat) (hx : x ≤ maxSafeInteger)
    (hy : y ≤ maxSafeInteger) (hz : z ≤ maxSafeInteger) :
    parseMain3 (mainChars x y z) = some (x, y, z) := by
  simp [parseMain3, splitOnChar_mainChars, parseMainComp_natDigits x hx,
    parseMainComp_natDigits y hy, parseMainComp_natDigits z hz]

theorem mainChars_head_digit (x y z : Nat) :
    ∃ d t, mainChars x y z = d :: t ∧ d.isDigit = true := by
  obtain ⟨d, ds, hnd⟩ := List.exists_cons_of_ne_nil (natDigits_ne_nil x)
  refine ⟨d, ds ++ '.' :: (natDigits y ++ '.' :: natDigits z), ?_, ?_⟩
  · rw [mainChars, hnd, List.cons_append]
  · exact mem_natDigits_isDigit x d (by rw [hnd]; exact List.mem_cons_self ..)

theorem semverParseCore_versionChars (p : SemVerM)
    (hpre : ∀ id ∈ p.prerelease, validPreId id = true)
    (hx : p.major ≤ maxSafeInteger) (hy : p.minor ≤ maxSafeInteger)
    (hz : p.patch ≤ maxSafeInteger) :
    semverParseCore p.versionChars
      = some ⟨p.major, p.minor, p.patch, p.prerelease, []⟩ := by
  have hdec := versionChars_decomp p
  have hclass : ∀ c ∈ p.versionChars, isIdentChar c = true ∨ c = '.' :=
    fun c hc => mem_versionChars_classify hpre hc
  have hclassA : ∀ c ∈ mainChars p.major p.minor p.patch ++ preSuffix p.prerelease,
      isIdentChar c = true ∨ c = '.' := by rw [← hdec]; exact hclass
  have hnoplus : ∀ c ∈ mainChars p.major p.minor p.patch ++ preSuffix p.prerelease,
      (fun c => !(c == '+')) c = true := by
    intro c hc
    rcases hclassA c hc with h | h
    · exact bnot_beq_of_ne (ne_of_bool_pred h (by decide))
    · subst h; decide
  have hmainNoDash : ∀ c ∈ mainChars p.major p.minor p.patch,
      (fun c => !(c == '-')) c = true := by
    intro c hc
    rcases mem_mainChars hc with h | h
    · exact bnot_beq_of_ne (ne_of_bool_pred h (by decide))
    · subst h; decide
  have hstrip : stripLeadingV (mainChars p.major p.minor p.patch ++ preSuffix p.prerelease)
      = mainChars p.major p.minor p.patch ++ preSuffix p.prerelease := by
    obtain ⟨d, t, hdt, hdig⟩ := mainChars_head_digit p.major p.minor p.patch
    rw [hdt, List.cons_append, stripLeadingV,
      if_neg (ne_of_bool_pred hdig (by decide))]
  rw [hdec]
  unfold semverParseCore
  rw [hstrip, takeWhile_all _ hnoplus, dropWhile_all _ hnoplus]
  cases hps : p.prerelease with
  | nil =>
    simp only [preSuffix, List.append_nil]
    rw [takeWhile_all _ hmainNoDash, dropWhile_all _ hmainNoDash]
    simp [restOpt, parsePre, parseBuild,
      parseMain3_mainChars p.major p.minor p.patch hx hy hz]
  | cons i is =>
    have hids : ∀ id ∈ i :: is, validPreId id = true := by
      rw [← hps]; exact hpre
    have hidsDots : ∀ id ∈ i :: is, ∀ c ∈ id, ¬ c = '.' := by
      intro id hid c hcid
      exact ne_of_bool_pred (validPreId_mem_ident (hids id hid) c hcid) (by decide)
    have hpredot : preSuffix (i :: is) = '-' :: joinDots (i :: is) := rfl
    rw [hpredot,
      takeWhile_append_stop (mainChars p.major p.minor p.patch) '-'
        (joinDots (i :: is)) hmainNoDash (by decide),
      dropWhile_append_stop (mainChars p.major p.minor p.patch) '-'
        (joinDots (i :: is)) hmainNoDash (by decide)]
    simp only [restOpt, parsePre, parseBuild]
    rw [splitOnChar_joinDots (i :: is) (by simp) hidsDots]
    simp [List.all_eq_true.mpr hids,
      parseMain3_mainChars p.major p.minor p.patch hx hy hz]

theorem semverParseL_versionChars (p : SemVerM) (h : SemVerWF p) :
    semverParseL p.versionChars
      = some ⟨p.major, p.minor, p.patch, p.prerelease, []⟩ := by
  obtain ⟨h1, h2, h3, h4, h5⟩ := h
  have hws : ∀ c ∈ p.versionChars, isJsWhitespace c = false := by
    intro c hc
    rcases mem_versionChars_classify h4 hc with h | h
    · exact isIdentChar_not_ws h
    · subst h; decide
  simp only [semverParseL]
  rw [if_neg (by omega), jsTrim_eq_self _ hws]
  exact semverParseCore_versionChars p h4 h1 h2 h3

/-! ### Well-formedness of successful parses -/

theorem length_takeWhile_self_le {p : Char → Bool} (l : List Char) :
    (l.takeWhile p).length ≤ l.length := by
  induction l with
  | nil => simp
  | cons c rest ih =>
    rw [List.takeWhile_cons]
    by_cases hc : p c = true
    · rw [if_pos hc]
      simp only [List.length_cons]
      omega
    · rw [if_neg hc]
      simp

theorem parseMainComp_some {ds : List Char} {x : Nat}
    (h : parseMainComp ds = some x) :
    validNumId ds = true ∧ digitsVal ds = x ∧ x ≤ maxSafeInteger := by
  unfold parseMainComp at h
  split at h
  next hv =>
    split at h
    next hle =>
      injection h with h3
      exact ⟨hv, h3, h3 ▸ hle⟩
    next => cases h
  next => cases h

theorem validNumId_parts {ds : List Char} (h : validNumId ds = true) :
    ds ≠ [] ∧ ∀ c ∈ ds, c.isDigit = true := by
  simp only [validNumId, Bool.and_eq_true, List.all_eq_true] at h
  refine ⟨?_, h.1.2⟩
  intro hnil
  subst hnil
  simp at h

theorem natDigits_length_le_of_valid {ds : List Char} {x : Nat}
    (hv : validNumId ds = true) (hd : digitsVal ds = x) :
    (natDigits x).length ≤ ds.length := by
  obtain ⟨hne, hdig⟩ := validNumId_parts hv
  have h1le : 1 ≤ ds.length := by
    cases ds with
    | nil => exact absurd rfl hne
    | cons a l => simp
  subst hd
  exact natDigits_length_le (digitsVal ds) ds.length h1le (digitsVal_lt ds hdig)

theorem semverParseCore_wf {cs : List Char} {p : SemVerM}
    (h : semverParseCore cs = some p) :
    p.major ≤ maxSafeInteger ∧ p.minor ≤ maxSafeInteger ∧ p.patch ≤ maxSafeInteger ∧
      (∀ id ∈ p.prerelease, validPreId id = true) ∧
      p.versionChars.length ≤ cs.length := by
  unfold semverParseCore at h
  generalize hcs1 : stripLeadingV cs = cs1 at h
  generalize hmp : List.takeWhile (fun c => !(c == '+')) cs1 = mainpre at h
  generalize hmain : List.takeWhile (fun c => !(c == '-')) mainpre = mainCs at h
  generalize hdash : List.dropWhile (fun c => !(c == '-')) mainpre = dashRest at h
  rcases h1 : parseMain3 mainCs with _ | ⟨⟨x, y, z⟩⟩ <;> rw [h1] at h
  · simp at h
  rcases h2 : parsePre (restOpt dashRest) with _ | pre <;> rw [h2] at h
  · simp at h
  rcases h3 : parseBuild (restOpt (List.dropWhile (fun c => !(c == '+')) cs1))
      with _ | bld <;> rw [h3] at h
  · simp at h
  have hp : p = ⟨x, y, z, pre, bld⟩ := by
    injection h with h'
    exact h'.symm
  subst hp
  unfold parseMain3 at h1
  rcases hs : splitOnChar '.' mainCs with _ | ⟨a, _ | ⟨b, _ | ⟨c', _ | ⟨d, rest⟩⟩⟩⟩ <;>
    rw [hs] at h1 <;> try simp at h1
  rcases hA : parseMainComp a with _ | x' <;> rw [hA] at h1
  · simp at h1
  rcases hB : parseMainComp b with _ | y' <;> rw [hB] at h1
  · simp at h1
  rcases hC : parseMainComp c' with _ | z' <;> rw [hC] at h1
  · simp at h1
  have h1'' : (x', y', z') = ((x, y, z) : Nat × Nat × Nat) :=
    Option.some.inj h1
  have hx' : x' = x := congrArg Prod.fst h1''
  have hy' : y' = y := congrArg (fun t => t.2.1) h1''
  have hz' : z' = z := congrArg (fun t => t.2.2) h1''
  subst hx'
  subst hy'
  subst hz'
  obtain ⟨hva, hda, hxa⟩ := parseMainComp_some hA
  obtain ⟨hvb, hdb, hxb⟩ := parseMainComp_some hB
  obtain ⟨hvc, hdc, hxc⟩ := parseMainComp_some hC
  -- prerelease facts and suffix length
  have hpre2 : (∀ id ∈ pre, validPreId id = true) ∧
      (preSuffix pre).length ≤ dashRest.length := by
    cases hdr : dashRest with
    | nil =>
      rw [hdr] at h2
      have h2' : some ([] : List (List Char)) = some pre := h2
      injection h2' with h2''
      rw [← h2'']
      simp [preSuffix]
    | cons dh pcs =>
      rw [hdr] at h2
      have h2' : (if (splitOnChar '.' pcs).all validPreId
          then some (splitOnChar '.' pcs) else none) = some pre := h2
      split at h2'
      next hall =>
        have hpe : pre = splitOnChar '.' pcs := by
          injection h2' with hx2
          exact hx2.symm
        subst hpe
        refine ⟨fun id hid => List.all_eq_true.mp hall id hid, ?_⟩
        rcases hsp : splitOnChar '.' pcs with _ | ⟨i, is⟩
        · exact absurd hsp (splitOnChar_ne_nil '.' pcs)
        · have hpsf : preSuffix (i :: is) = '-' :: joinDots (i :: is) := rfl
          rw [hpsf, ← hsp, joinDots_splitOnChar]
          simp
      next => cases h2'
  -- length accounting
  have hmaincs : mainCs = a ++ '.' :: (b ++ '.' :: c') := by
    have hj := joinDots_splitOnChar mainCs
    rw [hs] at hj
    rw [← hj]
    rfl
  have hlenMain : mainCs.length = a.length + b.length + c'.length + 2 := by
    rw [hmaincs]
    simp only [List.length_append, List.length_cons]
    omega
  have happ : mainCs ++ dashRest = mainpre := by
    rw [← hmain, ← hdash]
    exact List.takeWhile_append_dropWhile (fun c => !(c == '-')) mainpre
  have hlen1 : mainCs.length + dashRest.length = mainpre.length := by
    rw [← List.length_append, happ]
  have hlen2 : mainpre.length ≤ cs1.length := by
    rw [← hmp]
    exact length_takeWhile_self_le cs1
  have hlen3 : cs1.length ≤ cs.length := by
    rw [← hcs1]
    exact stripLeadingV_length_le cs
  have hna := natDigits_length_le_of_valid hva hda
  have hnb := natDigits_length_le_of_valid hvb hdb
  have hnc := natDigits_length_le_of_valid hvc hdc
  refine ⟨hxa, hxb, hxc, hpre2.1, ?_⟩
  have hdecV : (SemVerM.versionChars ⟨x', y', z', pre, bld⟩ : List Char)
      = mainChars x' y' z' ++ preSuffix pre :=
    versionChars_decomp (⟨x', y', z', pre, bld⟩ : SemVerM)
  rw [hdecV, List.length_append]
  have hmc : (mainChars x' y' z').length
      = (natDigits x').length + (natDigits y').length + (natDigits z').length + 2 := by
    simp only [mainChars, List.length_append, List.length_cons]
    omega
  have hps := hpre2.2
  omega

theorem semverParseL_wf {cs : List Char} {p : SemVerM}
    (h : semverParseL cs = some p) : SemVerWF p := by
  unfold semverParseL at h
  split at h
  next => simp at h
  next h256 =>
    obtain ⟨h1, h2, h3, h4, h5⟩ := semverParseCore_wf h
    refine ⟨h1, h2, h3, h4, ?_⟩
    have := jsTrim_length_le cs
    omega

/-! ### Round-tripping parseVersion on its own canonical output -/

theorem string_mk_data (l : List Char) : (⟨l⟩ : String).data = l := rfl

theorem stripLeadingV_v_cons (t : List Char) : stripLeadingV ('v' :: t) = t := by
  simp [stripLeadingV]

theorem parseVersion_some_inv {s : String} {d : NodeVersion}
    (h : NodeManager.parseVersion s = some d) :
    ∃ p, semverParseL (stripLeadingV s.data) = some p ∧
      d = ⟨⟨'v' :: p.versionChars⟩, p.major, p.minor, p.patch⟩ := by
  unfold NodeManager.parseVersion at h
  rcases hp : semverParseL (stripLeadingV s.data) with _ | p <;> rw [hp] at h
  · cases h
  · exact ⟨p, rfl, (Option.some.inj h).symm⟩

theorem versionChars_drop_build (p : SemVerM) :
    (SemVerM.versionChars ⟨p.major, p.minor, p.patch, p.prerelease, []⟩)
      = p.versionChars := by
  cases p
  rfl

theorem parseVersion_canonical {p : SemVerM} (hwf : SemVerWF p) :
    NodeManager.parseVersion ⟨'v' :: p.versionChars⟩
      = some ⟨⟨'v' :: p.versionChars⟩, p.major, p.minor, p.patch⟩ := by
  unfold NodeManager.parseVersion
  rw [string_mk_data, stripLeadingV_v_cons, semverParseL_versionChars p hwf]
  simp only [versionChars_drop_build]

theorem parseVersion_roundtrip {s : String} {d : NodeVersion}
    (h : NodeManager.parseVersion s = some d) :
    NodeManager.parseVersion d.version = some d := by
  obtain ⟨p, hp, hd⟩ := parseVersion_some_inv h
  have hwf := semverParseL_wf hp
  subst hd
  exact parseVersion_canonical hwf

theorem parseVersion_version_parses {s : String} {d : NodeVersion}
    (h : NodeManager.parseVersion s = some d) :
    ∃ q, semverParseL (stripLeadingV d.version.data) = some q := by
  obtain ⟨p, hp, hd⟩ := parseVersion_some_inv h
  subst hd
  refine ⟨⟨p.major, p.minor, p.patch, p.prerelease, []⟩, ?_⟩
  show semverParseL (stripLeadingV ('v' :: p.versionChars)) = _
  rw [stripLeadingV_v_cons]
  exact semverParseL_versionChars p (semverParseL_wf hp)

/-! ### Antisymmetry of the semver comparator -/

theorem cmpNat_antisym (a b : Nat) : cmpNat a b = -cmpNat b a := by
  unfold cmpNat
  rcases Nat.lt_trichotomy a b with h | h | h
  · rw [if_neg (show ¬a = b by omega), if_pos h,
      if_neg (show ¬b = a by omega), if_neg (show ¬b < a by omega)]
  · subst h
    simp
  · rw [if_neg (show ¬a = b by omega), if_neg (show ¬a < b by omega),
      if_neg (show ¬b = a by omega), if_pos h]
    rfl

theorem charListLt_asymm : ∀ a b, charListLt a b = true → charListLt b a = false := by
  intro a
  induction a with
  | nil =>
    intro b h
    cases b with
    | nil => simp [charListLt] at h
    | cons y ys => simp [charListLt]
  | cons x xs ih =>
    intro b h
    cases b with
    | nil => simp [charListLt] at h
    | cons y ys =>
      unfold charListLt at h ⊢
      by_cases h1 : x < y
      · rw [if_neg (fun hc => absurd h1 (lt_asymm hc)), if_pos h1]
      · by_cases h2 : y < x
        · rw [if_neg h1, if_pos h2] at h
          cases h
        · rw [if_neg h1, if_neg h2] at h
          rw [if_neg h2, if_neg h1]
          exact ih ys h

theorem charListLt_total : ∀ a b, ¬ a = b →
    charListLt a b = true ∨ charListLt b a = true := by
  intro a
  induction a with
  | nil =>
    intro b hne
    cases b with
    | nil => exact absurd rfl hne
    | cons y ys => left; rfl
  | cons x xs ih =>
    intro b hne
    cases b with
    | nil => right; rfl
    | cons y ys =>
      rcases lt_trichotomy x y with h | h | h
      · left
        unfold charListLt
        rw [if_pos h]
      · subst h
        have hne' : ¬ xs = ys := fun he => hne (by rw [he])
        rcases ih ys hne' with h' | h'
        · left
          unfold charListLt
          rw [if_neg (lt_irrefl x), if_neg (lt_irrefl x)]
          exact h'
        · right
          unfold charListLt
          rw [if_neg (lt_irrefl x), if_neg (lt_irrefl x)]
          exact h'
      · right
        unfold charListLt
        rw [if_pos h]

theorem compareIdentifiers_antisym (a b : List Char) :
    compareIdentifiers a b = -compareIdentifiers b a := by
  unfold compareIdentifiers
  by_cases ha : identIsNumeric a = true <;> by_cases hb : identIsNumeric b = true
  · simp only [ha, hb, Bool.and_self, if_pos]
    exact cmpNat_antisym ..
  · simp [ha, hb]
  · simp [ha, hb]
  · rw [if_neg (show ¬(identIsNumeric a && identIsNumeric b) = true by simp [ha]),
      if_neg (show ¬(identIsNumeric b && identIsNumeric a) = true by simp [hb]),
      if_neg ha, if_neg hb, if_neg hb, if_neg ha]
    by_cases heq : a = b
    · subst heq
      simp
    · rw [if_neg heq]
      rcases charListLt_total a b heq with h | h
      · rw [if_pos h, if_neg (show ¬b = a from fun hba => heq hba.symm),
          if_neg (show ¬charListLt b a = true by rw [charListLt_asymm a b h]; simp)]
      · rw [if_neg (show ¬charListLt a b = true by rw [charListLt_asymm b a h]; simp),
          if_neg (show ¬b = a from fun hba => heq hba.symm), if_pos h]
        decide

theorem comparePreLoop_antisym : ∀ as bs,
    comparePreLoop as bs = -comparePreLoop bs as := by
  intro as
  induction as with
  | nil =>
    intro bs
    cases bs with
    | nil => rfl
    | cons b bs => rfl
  | cons a as ih =>
    intro bs
    cases bs with
    | nil =>
      show (1 : Int) = -(-1)
      simp
    | cons b bs =>
      unfold comparePreLoop
      by_cases heq : a = b
      · rw [if_pos heq, if_pos heq.symm]
        exact ih bs
      · rw [if_neg heq, if_neg (fun hba => heq hba.symm)]
        exact compareIdentifiers_antisym a b

theorem comparePre_antisym (as bs : List (List Char)) :
    comparePre as bs = -comparePre bs as := by
  cases as with
  | nil =>
    cases bs with
    | nil => rfl
    | cons b bs =>
      show (1 : Int) = -(-1)
      simp
  | cons a as =>
    cases bs with
    | nil => rfl
    | cons b bs => exact comparePreLoop_antisym (a :: as) (b :: bs)

theorem compareMain_antisym (p q : SemVerM) :
    compareMain p q = -compareMain q p := by
  unfold compareMain
  have h1 := cmpNat_antisym p.major q.major
  have h2 := cmpNat_antisym p.minor q.minor
  have h3 := cmpNat_antisym p.patch q.patch
  by_cases hM : cmpNat p.major q.major = 0
  · have hM' : cmpNat q.major p.major = 0 := by omega
    rw [if_neg (show ¬(cmpNat p.major q.major ≠ 0) from fun hc => hc hM),
      if_neg (show ¬(cmpNat q.major p.major ≠ 0) from fun hc => hc hM')]
    by_cases hm : cmpNat p.minor q.minor = 0
    · have hm' : cmpNat q.minor p.minor = 0 := by omega
      rw [if_neg (show ¬(cmpNat p.minor q.minor ≠ 0) from fun hc => hc hm),
        if_neg (show ¬(cmpNat q.minor p.minor ≠ 0) from fun hc => hc hm')]
      exact h3
    · have hm' : ¬cmpNat q.minor p.minor = 0 := by omega
      rw [if_pos (show cmpNat p.minor q.minor ≠ 0 from hm),
        if_pos (show cmpNat q.minor p.minor ≠ 0 from hm')]
      exact h2
  · have hM' : ¬cmpNat q.major p.major = 0 := by omega
    rw [if_pos (show cmpNat p.major q.major ≠ 0 from hM),
      if_pos (show cmpNat q.major p.major ≠ 0 from hM')]
    exact h1

theorem semverCompare_antisym (p q : SemVerM) :
    semverCompare p q = -semverCompare q p := by
  unfold semverCompare
  have h1 := compareMain_antisym p q
  by_cases hM : compareMain p q = 0
  · have hM' : compareMain q p = 0 := by omega
    rw [if_neg (show ¬(compareMain p q ≠ 0) from fun hc => hc hM),
      if_neg (show ¬(compareMain q p ≠ 0) from fun hc => hc hM')]
    exact comparePre_antisym ..
  · have hM' : ¬compareMain q p = 0 := by omega
    rw [if_pos (show compareMain p q ≠ 0 from hM),
      if_pos (show compareMain q p ≠ 0 from hM')]
    exact h1

/-! ### The comparator-sort: permutation and adjacent sortedness -/

theorem sortLE_total (x y : InstalledNodeVersion) :
    sortLE x y = true ∨ sortLE y x = true := by
  unfold sortLE
  simp only [decide_eq_true_eq]
  unfold NodeManager.compareVersions
  rcases hx : semverParseL (stripLeadingV x.version.data) with _ | px <;>
    rcases hy : semverParseL (stripLeadingV y.version.data) with _ | py
  · left; simp
  · left; simp
  · left; simp
  · have h := semverCompare_antisym py px
    simp only [Option.getD_some]
    omega

theorem jsInsert_perm {α : Type} (le : α → α → Bool) (x : α) (l : List α) :
    List.Perm (jsInsert le x l) (x :: l) := by
  induction l with
  | nil => exact List.Perm.refl _
  | cons y ys ih =>
    unfold jsInsert
    by_cases h : le x y = true
    · rw [if_pos h]
    · rw [if_neg h]
      exact (List.Perm.cons y ih).trans (List.Perm.swap x y ys)

theorem jsSortBy_perm {α : Type} (le : α → α → Bool) (l : List α) :
    List.Perm (jsSortBy le l) l := by
  induction l with
  | nil => exact List.Perm.refl _
  | cons x xs ih =>
    show List.Perm (jsInsert le x (jsSortBy le xs)) (x :: xs)
    exact (jsInsert_perm le x _).trans (List.Perm.cons x ih)

theorem jsInsert_chain {α : Type} {le : α → α → Bool}
    (htot : ∀ a b, le a b = true ∨ le b a = true) (x : α) :
    ∀ l, List.Chain' (fun a b => le a b = true) l →
      List.Chain' (fun a b => le a b = true) (jsInsert le x l) := by
  intro l
  induction l with
  | nil => intro _; simp [jsInsert]
  | cons y ys ih =>
    intro hch
    unfold jsInsert
    by_cases h : le x y = true
    · rw [if_pos h]
      exact List.Chain'.cons h hch
    · rw [if_neg h]
      have hyx : le y x = true := (htot x y).resolve_left (fun hc => h hc)
      have hins := ih hch.tail
      rw [List.chain'_cons']
      refine ⟨?_, hins⟩
      intro z hz
      cases ys with
      | nil =>
        simp [jsInsert] at hz
        subst hz
        exact hyx
      | cons w ws =>
        unfold jsInsert at hz
        by_cases hw : le x w = true
        · rw [if_pos hw] at hz
          simp at hz
          subst hz
          exact hyx
        · rw [if_neg hw] at hz
          simp at hz
          subst hz
          exact (List.chain'_cons.mp hch).1

theorem jsSortBy_chain {α : Type} {le : α → α → Bool}
    (htot : ∀ a b, le a b = true ∨ le b a = true) (l : List α) :
    List.Chain' (fun a b => le a b = true) (jsSortBy le l) := by
  induction l with
  | nil => simp [jsSortBy]
  | cons x xs ih => exact jsInsert_chain htot x _ ih

theorem chain'_mono_mem {α : Type} {R S : α → α → Prop} :
    ∀ l : List α, (∀ a ∈ l, ∀ b ∈ l, R a b → S a b) →
      List.Chain' R l → List.Chain' S l := by
  intro l
  induction l with
  | nil => intro _ _; exact List.chain'_nil
  | cons x xs ih =>
    intro hmono hch
    cases xs with
    | nil => simp
    | cons y ys =>
      rw [List.chain'_cons] at hch ⊢
      refine ⟨hmono x (by simp) y (by simp) hch.1, ?_⟩
      exact ih
        (fun a ha b hb hr =>
          hmono a (List.mem_cons_of_mem _ ha) b (List.mem_cons_of_mem _ hb) hr)
        hch.2

/-! ### Structure of getInstalledVersions results -/

theorem getInstalledVersions_eq (cfg : Config) (fs : FSEnv) (env : SubprocessEnv)
    (dir : String) (entries : List DirEntry) (hdir : cfg.installDir = some dir)
    (hex : fs.pathExists = .ok true) (hrd : fs.readdir = .ok entries) :
    NodeManager.getInstalledVersions cfg fs env
      = jsSortBy sortLE (entries.filterMap
          (mkInstalledEntry dir (NodeManager.getCurrentEnvironment env).toOption)) := by
  unfold NodeManager.getInstalledVersions
  rw [hdir, hex, hrd]

theorem getInstalledVersions_empty_of_installDir (cfg : Config) (fs : FSEnv)
    (env : SubprocessEnv) (h : cfg.installDir = none) :
    NodeManager.getInstalledVersions cfg fs env = [] := by
  unfold NodeManager.getInstalledVersions
  rw [h]

theorem getInstalledVersions_empty_of_pathExists (cfg : Config) (fs : FSEnv)
    (env : SubprocessEnv) (h : ¬ fs.pathExists = .ok true) :
    NodeManager.getInstalledVersions cfg fs env = [] := by
  unfold NodeManager.getInstalledVersions
  rcases hdir : cfg.installDir with _ | dir
  · rfl
  · rcases hex : fs.pathExists with e | b
    · rfl
    · cases b with
      | false => rfl
      | true => exact absurd hex h

theorem getInstalledVersions_empty_of_readdir (cfg : Config) (fs : FSEnv)
    (env : SubprocessEnv) (e : String) (h : fs.readdir = .error e) :
    NodeManager.getInstalledVersions cfg fs env = [] := by
  unfold NodeManager.getInstalledVersions
  rcases hdir : cfg.installDir with _ | dir
  · rfl
  · rcases hex : fs.pathExists with e' | b
    · rfl
    · cases b with
      | false => rfl
      | true => rw [h]

theorem mkInstalledEntry_some {dir : String} {cenv : Option NodeEnvironment}
    {e : DirEntry} {v : InstalledNodeVersion}
    (h : mkInstalledEntry dir cenv e = some v) :
    v.default = false ∧
      (∃ d, NodeManager.parseVersion e.name = some d ∧ v.version = d.version) ∧
      (v.current = true → ∃ ce, cenv = some ce ∧ ce.nodeVersion = e.name) := by
  unfold mkInstalledEntry at h
  split at h
  next hcond =>
    rcases hp : NodeManager.parseVersion e.name with _ | vi <;> rw [hp] at h
    · cases h
    · have hv := Option.some.inj h
      refine ⟨by rw [← hv], ⟨vi, rfl, by rw [← hv]⟩, ?_⟩
      intro hcur
      rw [← hv] at hcur
      cases cenv with
      | none => simp at hcur
      | some ce =>
        refine ⟨ce, rfl, ?_⟩
        simpa using hcur
  next => cases h

theorem parseVersion_startsWithV {s : String} {d : NodeVersion}
    (h : NodeManager.parseVersion s = some d) : startsWithV d.version = true := by
  obtain ⟨p, hp, hd⟩ := parseVersion_some_inv h
  subst hd
  rfl

theorem countP_filterMap_le {α β : Type} (f : α → Option β) (p : β → Bool)
    (q : α → Bool) (hf : ∀ a b, f a = some b → p b = true → q a = true) :
    ∀ l : List α, (l.filterMap f).countP p ≤ l.countP q := by
  intro l
  induction l with
  | nil => simp
  | cons a l ih =>
    rw [List.filterMap_cons]
    cases hfa : f a with
    | none =>
      rw [List.countP_cons]
      by_cases hq : q a = true <;> simp [hq] <;> omega
    | some b =>
      rw [List.countP_cons, List.countP_cons]
      by_cases hp : p b = true
      · have hq := hf a b hfa hp
        simp [hp, hq]
        omega
      · by_cases hq : q a = true <;> simp [hp, hq] <;> omega

theorem mem_getInstalledVersions {cfg : Config} {fs : FSEnv} {env : SubprocessEnv}
    {v : InstalledNodeVersion} (h : v ∈ NodeManager.getInstalledVersions cfg fs env) :
    ∃ dir entries e, cfg.installDir = some dir ∧ fs.readdir = .ok entries ∧
      e ∈ entries ∧
      mkInstalledEntry dir (NodeManager.getCurrentEnvironment env).toOption e
        = some v := by
  rcases hdir : cfg.installDir with _ | dir
  · rw [getInstalledVersions_empty_of_installDir cfg fs env hdir] at h
    simp at h
  · rcases hex : fs.pathExists with e' | b
    · rw [getInstalledVersions_empty_of_pathExists cfg fs env (by rw [hex]; simp)] at h
      simp at h
    · cases b with
      | false =>
        rw [getInstalledVersions_empty_of_pathExists cfg fs env (by rw [hex]; simp)] at h
        simp at h
      | true =>
        rcases hrd : fs.readdir with e' | entries
        · rw [getInstalledVersions_empty_of_readdir cfg fs env e' hrd] at h
          simp at h
        · rw [getInstalledVersions_eq cfg fs env dir entries hdir hex hrd] at h
          have h2 := (jsSortBy_perm sortLE _).mem_iff.mp h
          obtain ⟨e, he, hme⟩ := List.mem_filterMap.mp h2
          exact ⟨dir, entries, e, rfl, rfl, he, hme⟩

/-! ### Claim theorems -/

/-- C1 counterexample: `parseVersion` accepts `"1.2.3-alpha.1"` and
returns a descriptor whose `version` field `"v1.2.3-alpha.1"` is not the
string `"v" + major + "." + minor + "." + patch` rebuilt from its own
numeric components — the prerelease suffix survives in `version`. -/
theorem c1_counterexample :
    NodeManager.parseVersion "1.2.3-alpha.1"
        = some { version := "v1.2.3-alpha.1", major := 1, minor := 2, patch := 3 } ∧
      ¬ ("v1.2.3-alpha.1" : String).data
        = reconstructVersion
            { version := "v1.2.3-alpha.1", major := 1, minor := 2, patch := 3 } := by
  constructor
  · decide
  · decide

/-- C1 (amended): for every accepted input, the descriptor's `version`
field is `"v" + major + "." + minor + "." + patch` extended with the
`-prerelease` suffix; the rebuilt string equals `version` exactly when the
parsed version has no prerelease identifiers (build metadata is always
dropped and never enters `version`). -/
theorem c1_version_reconstruction (s : String) (d : NodeVersion)
    (h : NodeManager.parseVersion s = some d) :
    ∃ pre : List (List Char),
      d.version.data = reconstructVersion d ++ preSuffix pre ∧
        (d.version.data = reconstructVersion d ↔ pre = []) := by
  obtain ⟨p, hp, hd⟩ := parseVersion_some_inv h
  subst hd
  refine ⟨p.prerelease, ?_⟩
  have hmain : ((⟨⟨'v' :: p.versionChars⟩, p.major, p.minor, p.patch⟩ :
        NodeVersion).version).data
      = reconstructVersion ⟨⟨'v' :: p.versionChars⟩, p.major, p.minor, p.patch⟩
        ++ preSuffix p.prerelease := by
    show 'v' :: p.versionChars
        = ('v' :: (natDigits p.major ++ ('.' :: natDigits p.minor)
            ++ ('.' :: natDigits p.patch))) ++ preSuffix p.prerelease
    rw [List.cons_append]
    rfl
  refine ⟨hmain, ?_, ?_⟩
  · intro heq
    have hsuf : reconstructVersion ⟨⟨'v' :: p.versionChars⟩, p.major, p.minor, p.patch⟩
          ++ preSuffix p.prerelease
        = reconstructVersion ⟨⟨'v' :: p.versionChars⟩, p.major, p.minor, p.patch⟩ :=
      hmain.symm.trans heq
    have hlen := congrArg List.length hsuf
    rw [List.length_append] at hlen
    have hzero : (preSuffix p.prerelease).length = 0 := by omega
    cases hps : p.prerelease with
    | nil => rfl
    | cons i is =>
      rw [hps] at hzero
      simp [preSuffix] at hzero
  · intro hpe
    rw [hmain, hpe]
    simp [preSuffix]

/-- C1 amended claim instantiated at the concrete accepted input
`"v2.3.4"`. -/
theorem c1_version_reconstruction_witness :
    NodeManager.parseVersion "v2.3.4"
        = some (⟨"v2.3.4", 2, 3, 4⟩ : NodeVersion) ∧
      ∃ pre : List (List Char),
        (⟨"v2.3.4", 2, 3, 4⟩ : NodeVersion).version.data
            = reconstructVersion ⟨"v2.3.4", 2, 3, 4⟩ ++ preSuffix pre ∧
          ((⟨"v2.3.4", 2, 3, 4⟩ : NodeVersion).version.data
              = reconstructVersion ⟨"v2.3.4", 2, 3, 4⟩ ↔ pre = []) :=
  ⟨by decide, c1_version_reconstruction "v2.3.4" _ (by decide)⟩

/-- C3 counterexample: a configuration record whose `installDir` key is
present but carries no value does not fall back to the default install
directory — the trailing `...config` spread overwrites the computed
default with the valueless field. -/
theorem c3_counterexample :
    (NodeManager.makeConfig "/home/user" { installDir := some none }).installDir
        = none ∧
      ¬ (NodeManager.makeConfig "/home/user" { installDir := some none }).installDir
        = some (defaultInstallDir "/home/user") := by
  constructor
  · rfl
  · decide

/-- C3 (amended): construction is pure and total; a field absent from the
record falls back to its default (install directory
`<home>/.ldesign/node`, mirror `https://nodejs.org/dist`, verbose
`false`), while a field present in the record keeps its given value even
when that value is absent or empty, because the `...config` spread runs
after the defaults are computed. -/
theorem c3_constructor_defaults (home : String) (config : ConfigIn) :
    (NodeManager.makeConfig home config).installDir
        = (match config.installDir with
           | none => some (defaultInstallDir home)
           | some v => v) ∧
      (NodeManager.makeConfig home config).mirror
        = (match config.mirror with
           | none => some defaultMirror
           | some v => v) ∧
      (NodeManager.makeConfig home config).verbose
        = (match config.verbose with
           | none => some false
           | some v => v) ∧
      (NodeManager.makeConfig home config).proxy
        = (match config.proxy with
           | none => none
           | some v => v) := by
  obtain ⟨i, m, px, vb⟩ := config
  refine ⟨?_, ?_, ?_, ?_⟩
  · cases i <;> rfl
  · cases m <;> rfl
  · cases vb <;> rfl
  · cases px <;> rfl

/-- C4: `parseVersion` returns an absent result exactly when the
delegated semver parser rejects the input after the single leading `v` is
stripped; in the embedding both sides are total functions, so no error is
ever raised. -/
theorem c4_malformed_returns_none (s : String) :
    NodeManager.parseVersion s = none
      ↔ semverParseL (stripLeadingV s.data) = none := by
  constructor
  · intro hn
    rcases h : semverParseL (stripLeadingV s.data) with _ | p
    · rfl
    · unfold NodeManager.parseVersion at hn
      rw [h] at hn
      simp at hn
  · intro hn
    unfold NodeManager.parseVersion
    rw [hn]

/-- C5 counterexample: a run in which `node --version` and
`npm --version` both succeed still fails as a whole, because both the
`which` and the `where` lookup for the node executable reject; no
snapshot is returned even though neither version invocation failed. -/
theorem c5_counterexample :
    sampleEnvNoLookup.nodeVersionCmd = .ok "v20.0.0" ∧
      sampleEnvNoLookup.npmVersionCmd = .ok "10.1.0" ∧
      NodeManager.getCurrentEnvironment sampleEnvNoLookup
        = .error "Failed to get Node environment: E2" := by
  refine ⟨rfl, rfl, ?_⟩
  decide

/-- C5 (amended): if the node version invocation fails, or it succeeds
and the npm version invocation fails, the whole call fails with the
single wrapping error, and no partial snapshot is returned; when both
version invocations succeed AND each executable lookup succeeds (possibly
through the `where` fallback), a complete snapshot with trimmed version
strings and first-line trimmed paths is returned; when both lookups for
an executable (node or npm) fail, the call fails with the wrapped lookup
error even though neither version invocation failed. -/
theorem c5_environment_error_wrapping (env : SubprocessEnv) :
    (∀ e, env.nodeVersionCmd = .error e →
      NodeManager.getCurrentEnvironment env = .error (envWrap e)) ∧
      (∀ nv e, env.nodeVersionCmd = .ok nv → env.npmVersionCmd = .error e →
        NodeManager.getCurrentEnvironment env = .error (envWrap e)) ∧
      (∀ nv npv np mp, env.nodeVersionCmd = .ok nv → env.npmVersionCmd = .ok npv →
        orElseCatch env.whichNodeCmd env.whereNodeCmd = .ok np →
        orElseCatch env.whichNpmCmd env.whereNpmCmd = .ok mp →
        NodeManager.getCurrentEnvironment env
          = .ok { nodeVersion := jsTrimS nv, npmVersion := jsTrimS npv,
                  nodePath := jsTrimS (firstLine np),
                  npmPath := jsTrimS (firstLine mp),
                  arch := env.arch, platform := env.platform }) ∧
      (∀ nv npv e, env.nodeVersionCmd = .ok nv → env.npmVersionCmd = .ok npv →
        orElseCatch env.whichNodeCmd env.whereNodeCmd = .error e →
        NodeManager.getCurrentEnvironment env = .error (envWrap e)) ∧
      (∀ nv npv np e, env.nodeVersionCmd = .ok nv → env.npmVersionCmd = .ok npv →
        orElseCatch env.whichNodeCmd env.whereNodeCmd = .ok np →
        orElseCatch env.whichNpmCmd env.whereNpmCmd = .error e →
        NodeManager.getCurrentEnvironment env = .error (envWrap e)) := by
  refine ⟨?_, ?_, ?_, ?_, ?_⟩
  · intro e he
    unfold NodeManager.getCurrentEnvironment
    rw [he]
  · intro nv e h1 h2
    unfold NodeManager.getCurrentEnvironment
    rw [h1, h2]
  · intro nv npv np mp h1 h2 h3 h4
    unfold NodeManager.getCurrentEnvironment
    rw [h1, h2, h3, h4]
  · intro nv npv e h1 h2 h3
    unfold NodeManager.getCurrentEnvironment
    rw [h1, h2, h3]
  · intro nv npv np e h1 h2 h3 h4
    unfold NodeManager.getCurrentEnvironment
    rw [h1, h2, h3, h4]

/-- C5 amended claim instantiated at a concrete all-successful oracle. -/
theorem c5_environment_error_wrapping_witness :
    NodeManager.getCurrentEnvironment sampleEnvOk
      = .ok { nodeVersion := "v20.0.0", npmVersion := "10.2.3",
              nodePath := "/usr/bin/node", npmPath := "/usr/bin/npm",
              arch := "x64", platform := "linux" } := by
  rw [(c5_environment_error_wrapping sampleEnvOk).2.2.1 "v20.0.0\n" "10.2.3\n"
    "/usr/bin/node\n" "/usr/bin/npm\n" rfl rfl rfl rfl]
  decide

/-- C6: `getInstalledVersions` never propagates an error: a missing
install directory, a rejected existence check, and a rejected directory
listing each produce the empty collection. -/
theorem c6_enumeration_never_fails (cfg : Config) (fs : FSEnv) (env : SubprocessEnv) :
    (fs.pathExists = Except.ok false →
      NodeManager.getInstalledVersions cfg fs env = []) ∧
      (∀ e, fs.pathExists = Except.error e →
        NodeManager.getInstalledVersions cfg fs env = []) ∧
      (∀ e, fs.readdir = Except.error e →
        NodeManager.getInstalledVersions cfg fs env = []) := by
  refine ⟨?_, ?_, ?_⟩
  · intro h
    exact getInstalledVersions_empty_of_pathExists cfg fs env (by rw [h]; simp)
  · intro e h
    exact getInstalledVersions_empty_of_pathExists cfg fs env (by rw [h]; simp)
  · intro e h
    exact getInstalledVersions_empty_of_readdir cfg fs env e h

/-- C6 claim instantiated at a concrete missing install directory. -/
theorem c6_enumeration_never_fails_witness :
    NodeManager.getInstalledVersions sampleCfg sampleFsMissing sampleEnvOk = [] :=
  (c6_enumeration_never_fails sampleCfg sampleFsMissing sampleEnvOk).1 rfl

/-- C7: every entry of every collection `getInstalledVersions` returns
has its `default` flag false; no other operation constructs installed
entries. -/
theorem c7_default_flag_always_false (cfg : Config) (fs : FSEnv)
    (env : SubprocessEnv) (v : InstalledNodeVersion)
    (h : v ∈ NodeManager.getInstalledVersions cfg fs env) : v.default = false := by
  obtain ⟨dir, entries, e, -, -, -, hme⟩ := mem_getInstalledVersions h
  exact (mkInstalledEntry_some hme).1

/-- C7 claim instantiated at a concrete member of a concrete run. -/
theorem c7_default_flag_always_false_witness :
    (⟨"v20.0.0", 20, 0, 0, "/home/u/.ldesign/node/v20.0.0", true, false⟩ :
        InstalledNodeVersion).default = false :=
  c7_default_flag_always_false sampleCfg sampleFs sampleEnvOk _ (by decide)

/-- C2: in a run whose install directory exists and whose listing
succeeds, the returned collection is a permutation of the per-entry
filter (one entry per child that is a directory, is named with a leading
`v`, and parses; all others omitted), and adjacent results are in
descending order under the `compareVersions` three-way comparator — the
comparison succeeds and is nonnegative from each entry to the next. -/
theorem c2_enumeration_filter_and_sort (cfg : Config) (fs : FSEnv)
    (env : SubprocessEnv) (dir : String) (entries : List DirEntry)
    (hdir : cfg.installDir = some dir) (hex : fs.pathExists = Except.ok true)
    (hrd : fs.readdir = Except.ok entries) :
    (NodeManager.getInstalledVersions cfg fs env).Perm
        (entries.filterMap
          (mkInstalledEntry dir (NodeManager.getCurrentEnvironment env).toOption)) ∧
      List.Chain'
        (fun a b => ∃ c, NodeManager.compareVersions a.version b.version = some c ∧ 0 ≤ c)
        (NodeManager.getInstalledVersions cfg fs env) := by
  rw [getInstalledVersions_eq cfg fs env dir entries hdir hex hrd]
  refine ⟨jsSortBy_perm sortLE _, ?_⟩
  have hchain := jsSortBy_chain sortLE_total
    (entries.filterMap
      (mkInstalledEntry dir (NodeManager.getCurrentEnvironment env).toOption))
  refine chain'_mono_mem _ ?_ hchain
  intro a ha b hb hr
  have ha' := (jsSortBy_perm sortLE _).mem_iff.mp ha
  have hb' := (jsSortBy_perm sortLE _).mem_iff.mp hb
  obtain ⟨ea, hea, hmea⟩ := List.mem_filterMap.mp ha'
  obtain ⟨eb, heb, hmeb⟩ := List.mem_filterMap.mp hb'
  obtain ⟨-, ⟨da, hda, hvda⟩, -⟩ := mkInstalledEntry_some hmea
  obtain ⟨-, ⟨db, hdb, hvdb⟩, -⟩ := mkInstalledEntry_some hmeb
  obtain ⟨qa, hqa⟩ := parseVersion_version_parses hda
  obtain ⟨qb, hqb⟩ := parseVersion_version_parses hdb
  rw [hvda, hvdb]
  refine ⟨semverCompare qa qb, ?_, ?_⟩
  · unfold NodeManager.compareVersions
    rw [hqa, hqb]
  · unfold sortLE at hr
    simp only [decide_eq_true_eq] at hr
    unfold NodeManager.compareVersions at hr
    rw [hvda, hvdb] at hr
    rw [hqa, hqb] at hr
    simp only [Option.getD_some] at hr
    have hanti := semverCompare_antisym qa qb
    omega

/-- C2 claim instantiated at a concrete run with directories `v18.0.0`,
`v20.0.0`, `not-a-version` and a non-directory `v19.0.0`. -/
theorem c2_enumeration_filter_and_sort_witness :
    (NodeManager.getInstalledVersions sampleCfg sampleFs sampleEnvOk).Perm
        ((([⟨"v18.0.0", true⟩, ⟨"v20.0.0", true⟩, ⟨"not-a-version", true⟩,
            ⟨"v19.0.0", false⟩] : List DirEntry)).filterMap
          (mkInstalledEntry "/home/u/.ldesign/node"
            (NodeManager.getCurrentEnvironment sampleEnvOk).toOption)) ∧
      List.Chain'
        (fun a b => ∃ c, NodeManager.compareVersions a.version b.version = some c ∧ 0 ≤ c)
        (NodeManager.getInstalledVersions sampleCfg sampleFs sampleEnvOk) :=
  c2_enumeration_filter_and_sort sampleCfg sampleFs sampleEnvOk
    "/home/u/.ldesign/node"
    [⟨"v18.0.0", true⟩, ⟨"v20.0.0", true⟩, ⟨"not-a-version", true⟩, ⟨"v19.0.0", false⟩]
    (by decide) rfl rfl

/-- C8: `isVersionInstalled` is true exactly when some returned entry's
canonical version string equals the input string as a plain string
comparison; and since every canonical entry starts with `v`, an input
lacking the `v` prefix never matches. -/
theorem c8_isVersionInstalled_exact_match (cfg : Config) (fs : FSEnv)
    (env : SubprocessEnv) (s : String) :
    (NodeManager.isVersionInstalled cfg fs env s = true ↔
        ∃ v ∈ NodeManager.getInstalledVersions cfg fs env, v.version = s) ∧
      (startsWithV s = false →
        NodeManager.isVersionInstalled cfg fs env s = false) := by
  constructor
  · unfold NodeManager.isVersionInstalled
    rw [List.any_eq_true]
    constructor
    · rintro ⟨v, hv, hbeq⟩
      exact ⟨v, hv, by simpa using hbeq⟩
    · rintro ⟨v, hv, heq⟩
      exact ⟨v, hv, by simpa using heq⟩
  · intro hs
    by_contra htrue
    have htrue' : NodeManager.isVersionInstalled cfg fs env s = true := by
      cases hh : NodeManager.isVersionInstalled cfg fs env s
      · exact absurd hh htrue
      · rfl
    unfold NodeManager.isVersionInstalled at htrue'
    rw [List.any_eq_true] at htrue'
    obtain ⟨v, hv, hbeq⟩ := htrue'
    have hveq : v.version = s := by simpa using hbeq
    obtain ⟨dir, entries, e, -, -, -, hme⟩ := mem_getInstalledVersions hv
    obtain ⟨-, ⟨d, hd, hvd⟩, -⟩ := mkInstalledEntry_some hme
    have hsw := parseVersion_startsWithV hd
    rw [← hvd, hveq] at hsw
    rw [hsw] at hs
    cases hs

/-- C8 claim instantiated: the unprefixed input `"20.0.0"` is not found
even though `v20.0.0` is installed in the sample run. -/
theorem c8_isVersionInstalled_exact_match_witness :
    NodeManager.isVersionInstalled sampleCfg sampleFs sampleEnvOk "20.0.0" = false :=
  (c8_isVersionInstalled_exact_match sampleCfg sampleFs sampleEnvOk "20.0.0").2
    (by decide)

/-- C9: `parseVersion` is idempotent on its own output: re-parsing the
returned descriptor's canonical version string returns the descriptor
unchanged (all of `version`, `major`, `minor`, `patch`). -/
theorem c9_parseVersion_idempotent (s : String) (d : NodeVersion)
    (h : NodeManager.parseVersion s = some d) :
    NodeManager.parseVersion d.version = some d :=
  parseVersion_roundtrip h

/-- C9 claim instantiated at a prerelease-and-build input. -/
theorem c9_parseVersion_idempotent_witness :
    NodeManager.parseVersion (⟨"v1.2.3-rc.1", 1, 2, 3⟩ : NodeVersion).version
      = some ⟨"v1.2.3-rc.1", 1, 2, 3⟩ :=
  c9_parseVersion_idempotent "1.2.3-rc.1+build.5" _ (by decide)

/-- C10: when the directory-entry names of a successful listing are
distinct, at most one returned entry has its `current` flag true (the
flag requires the entry name to equal the single active node version
string); and when the environment query fails, every entry's `current`
flag is false. -/
theorem c10_at_most_one_current (cfg : Config) (fs : FSEnv) (env : SubprocessEnv) :
    (∀ entries, fs.readdir = Except.ok entries →
        (entries.map DirEntry.name).Nodup →
        (NodeManager.getInstalledVersions cfg fs env).countP
          (fun v => v.current) ≤ 1) ∧
      (∀ e, NodeManager.getCurrentEnvironment env = Except.error e →
        ∀ v ∈ NodeManager.getInstalledVersions cfg fs env, v.current = false) := by
  constructor
  · intro entries hrd hnd
    rcases hdir : cfg.installDir with _ | dir
    · rw [getInstalledVersions_empty_of_installDir cfg fs env hdir]
      simp
    · rcases hex : fs.pathExists with e' | b
      · rw [getInstalledVersions_empty_of_pathExists cfg fs env (by rw [hex]; simp)]
        simp
      · cases b with
        | false =>
          rw [getInstalledVersions_empty_of_pathExists cfg fs env (by rw [hex]; simp)]
          simp
        | true =>
          rw [getInstalledVersions_eq cfg fs env dir entries hdir hex hrd]
          rw [(jsSortBy_perm sortLE _).countP_eq]
          cases hce : (NodeManager.getCurrentEnvironment env).toOption with
          | none =>
            have hz : (entries.filterMap (mkInstalledEntry dir none)).countP
                (fun v => v.current) = 0 := by
              rw [List.countP_eq_zero]
              intro v hv
              obtain ⟨e, he, hme⟩ := List.mem_filterMap.mp hv
              obtain ⟨-, -, hcur⟩ := mkInstalledEntry_some hme
              intro hct
              obtain ⟨ce, hcee, -⟩ := hcur hct
              cases hcee
            omega
          | some ce =>
            have hle := countP_filterMap_le (mkInstalledEntry dir (some ce))
              (fun v => v.current) (fun e => e.name == ce.nodeVersion)
              (by
                intro a b hab hb
                obtain ⟨-, -, hcur⟩ := mkInstalledEntry_some hab
                obtain ⟨ce', hce', hname⟩ := hcur hb
                have hcee : ce' = ce := (Option.some.inj hce').symm
                subst hcee
                show (a.name == ce'.nodeVersion) = true
                rw [hname]
                simp)
              entries
            have h2 : entries.countP (fun e => e.name == ce.nodeVersion)
                = (entries.map DirEntry.name).countP (fun s => s == ce.nodeVersion) := by
              rw [List.countP_map]
              rfl
            have h3 : (entries.map DirEntry.name).countP (fun s => s == ce.nodeVersion)
                = (entries.map DirEntry.name).count ce.nodeVersion := rfl
            have h4 := List.nodup_iff_count_le_one.mp hnd ce.nodeVersion
            omega
  · intro e he v hv
    obtain ⟨dir, entries, e', -, -, -, hme⟩ := mem_getInstalledVersions hv
    obtain ⟨-, -, hcur⟩ := mkInstalledEntry_some hme
    by_contra hne
    have hct : v.current = true := by
      cases hh : v.current
      · exact absurd hh hne
      · rfl
    obtain ⟨ce, hce, -⟩ := hcur hct
    rw [he] at hce
    simp [Except.toOption] at hce

/-- C10 claim instantiated at the concrete sample run. -/
theorem c10_at_most_one_current_witness :
    (NodeManager.getInstalledVersions sampleCfg sampleFs sampleEnvOk).countP
      (fun v => v.current) ≤ 1 :=
  (c10_at_most_one_current sampleCfg sampleFs sampleEnvOk).1
    [⟨"v18.0.0", true⟩, ⟨"v20.0.0", true⟩, ⟨"not-a-version", true⟩,
      ⟨"v19.0.0", false⟩]
    rfl (by decide)
